import Mathlib

set_option maxHeartbeats 1000000

/-!
Shallow embedding of the MechanicalTurkeyz zEdit patcher core
(src/gulpfile.ts, the complete patcher document, lines 65 to 920).

JS objects keyed by strings are modelled as functions into Option.
The four-valued Answer enum, the normalization of remembered answers,
the Inclusive/Exclusive decision rules, the learning step, the memory
store operations (addName, addAnswer) and the import merge are
translated directly from the source.  Asynchronous hashing is modelled
by a list of per-file results (Except) with fail-fast collection,
matching the Promise.map / each combination in the source.
-/

/-- Answer enum (gulpfile.ts lines 83 to 100): 1=Yes, 2=No, 3=MaybeYes, 4=MaybeNo. -/
inductive Answer
  | Yes
  | No
  | MaybeYes
  | MaybeNo
  deriving DecidableEq, Fintype

/-- Keyword types (gulpfile.ts lines 145 to 158). -/
inductive KeywordType
  | Inclusive
  | Exclusive
  deriving DecidableEq

/-- Verdict of the automatic decision loop for one keyword:
Apply = xelib.AddKeyword is called, Skip = early return without tagging,
Ask = keyword is pushed onto keywordsToAsk. -/
inductive Verdict
  | Apply
  | Skip
  | Ask
  deriving DecidableEq

/-- Dialog choices, in button order (gulpfile.ts lines 804 to 810). -/
inductive Choice
  | cyes
  | cmaybeYes
  | cmaybeNo
  | cno
  | ccancel
  deriving DecidableEq

/-- Memory interface (gulpfile.ts lines 107 to 116): observed filenames and
per-keyword answers.  The keywords JS object is modelled as a function
into Option Answer, absent key = none. -/
structure Memory where
  filenames : List String
  keywords : String → Option Answer

/-- Memories interface (gulpfile.ts lines 121 to 123): filehash to Memory. -/
abbrev Memories := String → Option Memory

/-- The empty object default used by the destructurings
`const { filenames = [], keywords = {} } = taggednifs[hash] ?? {}`. -/
def defaultMemory : Memory := ⟨[], fun _ => none⟩

/-- An empty store, as produced by loading a missing memory file. -/
def emptyMemories : Memories := fun _ => none

/-- Lookup `taggednifs[hash]?.keywords[keyword]` (gulpfile.ts line 686). -/
def memAnswer (mem : Memories) (hash keyword : String) : Option Answer :=
  (mem hash).bind (fun m => m.keywords keyword)

/-- Lookup of the filenames field of an entry (empty when absent). -/
def memFilenames (mem : Memories) (hash : String) : List String :=
  ((mem hash).getD defaultMemory).filenames

/-- addAnswer (gulpfile.ts lines 601 to 611): set the stored answer for
`keyword` on the entry of `hash`, creating the entry when absent. -/
def addAnswer (mem : Memories) (keyword hash : String) (answer : Answer) : Memories :=
  let m := (mem hash).getD defaultMemory
  fun h =>
    if h = hash then
      some ⟨m.filenames, fun k => if k = keyword then some answer else m.keywords k⟩
    else mem h

/-- addName (gulpfile.ts lines 615 to 623): append `nif` to the filename
list of the entry of `hash` iff absent, creating the entry when absent. -/
def addName (mem : Memories) (hash nif : String) : Memories :=
  let m := (mem hash).getD defaultMemory
  let fns := if nif ∈ m.filenames then m.filenames else m.filenames ++ [nif]
  fun h => if h = hash then some ⟨fns, m.keywords⟩ else mem h

/-- Normalization of a remembered answer before the decision rule
(gulpfile.ts lines 688 to 696): the switch maps MaybeYes / MaybeNo to
undefined when redoMaybes and to Yes / No otherwise; the default case
passes the answer through. -/
def normalizeAnswer (redoMaybes : Bool) (answer : Option Answer) : Option Answer :=
  match answer with
  | some Answer.MaybeYes => if redoMaybes then none else some Answer.Yes
  | some Answer.MaybeNo => if redoMaybes then none else some Answer.No
  | _ => answer

/-- answers[keyword] (gulpfile.ts lines 683 to 698): the remembered answer of
every hash, normalized per redoMaybes. -/
def answersFor (redoMaybes : Bool) (mem : Memories) (keyword : String)
    (hashes : List String) : List (Option Answer) :=
  hashes.map (fun hash => normalizeAnswer redoMaybes (memAnswer mem hash keyword))

/-- Index-based filter, modelling the JS `list.filter((_, i) => p(i))` idiom. -/
def filterByIdx {α : Type} (l : List α) (p : Nat → Bool) : List α :=
  (l.enum.filter (fun x => p x.1)).map Prod.snd

/-- The hashes surviving `relevantHashes[keyword].filter((_, i) =>
relevantAnswers[keyword][i] !== bad)` (gulpfile.ts lines 836 to 838 with
bad = No, lines 887 to 889 with bad = Yes).  Out-of-range indexing yields
undefined, which differs from `bad` and keeps the hash. -/
def stillAmbiguous (bad : Answer) (relH : List String) (relA : List (Option Answer)) :
    List String :=
  filterByIdx relH (fun i => decide (relA.getD i none ≠ some bad))

/-- Exclusive decision rule (gulpfile.ts lines 758 to 782): Apply when every
relevant answer is Yes, else Skip when some relevant answer is No, else Ask. -/
def decideExclusive (answers : List (Option Answer)) : Verdict :=
  if answers.all (fun a => decide (a = some Answer.Yes)) then Verdict.Apply
  else if answers.any (fun a => decide (a = some Answer.No)) then Verdict.Skip
  else Verdict.Ask

/-- Inclusive decision rule (gulpfile.ts lines 733 to 757): Apply when some
relevant answer is Yes, else Skip when every relevant answer is No, else Ask. -/
def decideInclusive (answers : List (Option Answer)) : Verdict :=
  if answers.any (fun a => decide (a = some Answer.Yes)) then Verdict.Apply
  else if answers.all (fun a => decide (a = some Answer.No)) then Verdict.Skip
  else Verdict.Ask

/-- Verdict dispatch on the keyword type (the switch at gulpfile.ts line 732). -/
def keywordVerdict (kt : KeywordType) (answers : List (Option Answer)) : Verdict :=
  match kt with
  | KeywordType.Inclusive => decideInclusive answers
  | KeywordType.Exclusive => decideExclusive answers

/-- Learning from one user choice for one keyword (the body of
`choices.forEach` at gulpfile.ts lines 825 to 908).  Returns the updated
store and tag list, or none when the user chose Cancel (the two
`throw new Error` sites at lines 863 to 864 and 901 to 902).
Exclusive Yes/MaybeYes (lines 868 to 882): tag the record and record the
answer for every hash.  Exclusive No/MaybeNo (lines 884 to 899): no tag;
attribute the answer only when exactly one relevant hash was not already
Yes.  Inclusive is the mirrored logic at lines 831 to 865; note the
source applies no tag in its Yes/MaybeYes branch. -/
def learnOne (kt : KeywordType) (relH : List String) (relA : List (Option Answer))
    (hashes : List String) (keyword : String) (choice : Choice)
    (mem : Memories) (tags : List String) : Option (Memories × List String) :=
  match kt with
  | KeywordType.Inclusive =>
    match choice with
    | Choice.cyes | Choice.cmaybeYes =>
      match stillAmbiguous Answer.No relH relA with
      | [h] => some (addAnswer mem keyword h
          (if choice = Choice.cyes then Answer.Yes else Answer.MaybeYes), tags)
      | _ => some (mem, tags)
    | Choice.cno | Choice.cmaybeNo =>
      some (hashes.foldl (fun m h => addAnswer m keyword h
          (if choice = Choice.cno then Answer.No else Answer.MaybeNo)) mem, tags)
    | Choice.ccancel => none
  | KeywordType.Exclusive =>
    match choice with
    | Choice.cyes | Choice.cmaybeYes =>
      some (hashes.foldl (fun m h => addAnswer m keyword h
          (if choice = Choice.cyes then Answer.Yes else Answer.MaybeYes)) mem,
        tags ++ [keyword])
    | Choice.cno | Choice.cmaybeNo =>
      match stillAmbiguous Answer.Yes relH relA with
      | [h] => some (addAnswer mem keyword h
          (if choice = Choice.cno then Answer.No else Answer.MaybeNo), tags)
      | _ => some (mem, tags)
    | Choice.ccancel => none

/-- The whole `choices.forEach` loop: process the asked keywords in order;
a Cancel raises, stopping the loop with the store and tags as mutated so
far and skipping the subsequent saveMemories (third component = true). -/
def learnAll (ktype : String → KeywordType) (relH : String → List String)
    (relA : String → List (Option Answer)) (hashes : List String)
    (choiceOf : String → Choice) :
    List String → Memories → List String → Memories × List String × Bool
  | [], mem, tags => (mem, tags, false)
  | k :: rest, mem, tags =>
    match learnOne (ktype k) (relH k) (relA k) hashes k (choiceOf k) mem tags with
    | none => (mem, tags, true)
    | some (mem', tags') => learnAll ktype relH relA hashes choiceOf rest mem' tags'

/-- Fail-fast collection of the per-nif hash results: Promise.map resolves
with the array of hashes when every operation succeeds and rejects with the
error of a failed one otherwise (gulpfile.ts lines 660 to 672). -/
def collectHashes : List (Except String String) → Except String (List String)
  | [] => Except.ok []
  | Except.error e :: _ => Except.error e
  | Except.ok h :: rest => (collectHashes rest).map (fun hs => h :: hs)

/-- The `.each((hash, i) => addName(hash, nifs[i]))` pass over the resolved
hash array (gulpfile.ts line 672). -/
def recordNames (mem : Memories) (hashes nifs : List String) : Memories :=
  hashes.enum.foldl (fun m p => addName m p.2 (nifs.getD p.1 "")) mem

/-- The hashing segment of patch (gulpfile.ts lines 657 to 678): on any
failure the catch block logs and returns, leaving the store untouched (the
`each` pass never runs on a rejected Promise.map); on success every
hash/nif pair is recorded as a filename observation. -/
def hashPhase (hashResults : List (Except String String)) (nifs : List String)
    (mem : Memories) : Option (List String) × Memories :=
  match collectHashes hashResults with
  | Except.error _ => (none, mem)
  | Except.ok hashes => (some hashes, recordNames mem hashes nifs)

/-- relevantHashes[keyword] (gulpfile.ts lines 703 to 724): the hashes at
indices whose ARMA is relevant for the keyword. -/
def relHashesOf (isRel : String → Nat → Bool) (hashes : List String) (k : String) :
    List String :=
  filterByIdx hashes (isRel k)

/-- relevantAnswers[keyword] (gulpfile.ts lines 700 to 724): the normalized
answers at indices whose ARMA is relevant for the keyword. -/
def relAnswersOf (redoMaybes : Bool) (isRel : String → Nat → Bool) (mem : Memories)
    (hashes : List String) (k : String) : List (Option Answer) :=
  filterByIdx (answersFor redoMaybes mem k hashes) (isRel k)

/-- The automatic decision loop over keywordsToPatch (gulpfile.ts lines 726
to 789): first component the keywords tagged automatically (Apply), second
component keywordsToAsk (Ask), both in keyword order. -/
def decisionPhase (ktype : String → KeywordType)
    (relA : String → List (Option Answer)) : List String → List String × List String
  | [] => ([], [])
  | k :: rest =>
    let r := decisionPhase ktype relA rest
    match keywordVerdict (ktype k) (relA k) with
    | Verdict.Apply => (k :: r.1, r.2)
    | Verdict.Skip => r
    | Verdict.Ask => (r.1, k :: r.2)

/-- Process-wide state threaded through the record loop: the in-memory
store (locals.taggednifs) and the persisted snapshot (the memory file). -/
structure RunState where
  mem : Memories
  persisted : Memories

/-- Observable outcome of one patch call: final in-memory store, persisted
snapshot, keywords tagged onto the record, and whether the user cancelled. -/
structure PatchOutcome where
  mem : Memories
  persisted : Memories
  tags : List String
  cancelled : Bool

/-- One patch call (gulpfile.ts lines 595 to 915) for one ARMO record.
`isRel k i` stands for the relevance test of the i-th ARMA for keyword k
(computed in the source from its body-template flags and irrelevantSlots);
`choiceOf` is the dialog oracle.  Control flow in source order: empty nif
list returns early; a hash failure is caught and returns early; otherwise
names are recorded, the decision loop runs, and when nothing is left to
ask the call returns before saveMemories; otherwise the learning loop runs
and, unless cancelled, saveMemories persists the store (lines 910 to 911). -/
def processRecord (redoMaybes : Bool) (ktype : String → KeywordType)
    (keywordsToPatch : List String) (isRel : String → Nat → Bool)
    (choiceOf : String → Choice) (nifs : List String)
    (hashResults : List (Except String String)) (st : RunState) : PatchOutcome :=
  if nifs.isEmpty then ⟨st.mem, st.persisted, [], false⟩
  else
    match hashPhase hashResults nifs st.mem with
    | (none, _) => ⟨st.mem, st.persisted, [], false⟩
    | (some hashes, mem1) =>
      let dp := decisionPhase ktype (relAnswersOf redoMaybes isRel mem1 hashes)
        keywordsToPatch
      if dp.2.isEmpty then ⟨mem1, st.persisted, dp.1, false⟩
      else
        let lr := learnAll ktype (relHashesOf isRel hashes)
          (relAnswersOf redoMaybes isRel mem1 hashes) hashes choiceOf dp.2 mem1 dp.1
        if lr.2.2 then ⟨lr.1, st.persisted, lr.2.1, true⟩
        else ⟨lr.1, lr.1, lr.2.1, false⟩

/-- First-occurrence deduplication with an accumulator of already seen
elements: the semantics of iterating a JS Set built from a spread. -/
def dedupSeen : List String → List String → List String
  | _, [] => []
  | seen, a :: l =>
    if a ∈ seen then dedupSeen seen l else a :: dedupSeen (a :: seen) l

/-- `[...new Set(l)]`: keep the first occurrence of every element. -/
def dedupFirst (l : List String) : List String := dedupSeen [] l

/-- Merge of two entries for the same hash (gulpfile.ts lines 421 to 426):
filenames become `[...new Set([...memory.filenames, ...filenames])]` and
keywords become `Object.assign(keywords, memory.keywords)`, the imported
answers overlaid by the local ones. -/
def mergeEntry (memory newMemory : Memory) : Memory :=
  ⟨dedupFirst (memory.filenames ++ newMemory.filenames),
   fun k => match memory.keywords k with
     | some a => some a
     | none => newMemory.keywords k⟩

/-- The merge loop of importMemories (gulpfile.ts lines 396 to 431): every
hash of the imported store absent locally is inserted verbatim; every hash
present in both gets the merged entry; other local hashes are untouched. -/
def importMemories (memories newMemories : Memories) : Memories :=
  fun hash =>
    match newMemories hash with
    | none => memories hash
    | some nm =>
      match memories hash with
      | none => some nm
      | some m => some (mergeEntry m nm)

/-! ## Helper lemmas -/

theorem bool_eq_of_iff {a b : Bool} (h : (a = true) ↔ (b = true)) : a = b := by
  cases a <;> cases b <;> simp_all

theorem perm_all_eq {α : Type} {l l' : List α} (h : l.Perm l') (p : α → Bool) :
    l.all p = l'.all p := by
  apply bool_eq_of_iff
  simp only [List.all_eq_true]
  exact ⟨fun H a ha => H a (h.mem_iff.mpr ha), fun H a ha => H a (h.mem_iff.mp ha)⟩

theorem perm_any_eq {α : Type} {l l' : List α} (h : l.Perm l') (p : α → Bool) :
    l.any p = l'.any p := by
  apply bool_eq_of_iff
  simp only [List.any_eq_true]
  constructor
  · rintro ⟨a, ha, hp⟩
    exact ⟨a, h.mem_iff.mp ha, hp⟩
  · rintro ⟨a, ha, hp⟩
    exact ⟨a, h.mem_iff.mpr ha, hp⟩

theorem decideExclusive_apply_iff (l : List (Option Answer)) :
    decideExclusive l = Verdict.Apply ↔ ∀ a ∈ l, a = some Answer.Yes := by
  by_cases hall : l.all (fun a => decide (a = some Answer.Yes)) = true
  · simp only [decideExclusive, if_pos hall]
    simp only [List.all_eq_true, decide_eq_true_eq] at hall
    simpa using hall
  · simp only [decideExclusive, if_neg hall]
    constructor
    · intro h
      split at h <;> simp_all
    · intro h
      exact absurd (List.all_eq_true.mpr (fun a ha => decide_eq_true (h a ha))) hall

theorem decideExclusive_skip_iff (l : List (Option Answer)) :
    decideExclusive l = Verdict.Skip ↔ some Answer.No ∈ l := by
  by_cases hall : l.all (fun a => decide (a = some Answer.Yes)) = true
  · simp only [decideExclusive, if_pos hall]
    simp only [List.all_eq_true, decide_eq_true_eq] at hall
    constructor
    · intro h
      cases h
    · intro h
      have := hall _ h
      cases this
  · simp only [decideExclusive, if_neg hall]
    by_cases hany : l.any (fun a => decide (a = some Answer.No)) = true
    · simp only [if_pos hany]
      simp only [List.any_eq_true, decide_eq_true_eq] at hany
      obtain ⟨a, ha, rfl⟩ := hany
      simpa using ha
    · simp only [if_neg hany]
      simp only [List.any_eq_true, decide_eq_true_eq] at hany
      constructor
      · intro h
        cases h
      · intro h
        exact absurd ⟨_, h, rfl⟩ hany

theorem decideExclusive_ask_iff (l : List (Option Answer)) :
    decideExclusive l = Verdict.Ask ↔
      ¬(∀ a ∈ l, a = some Answer.Yes) ∧ some Answer.No ∉ l := by
  cases hd : decideExclusive l with
  | Apply =>
    have := (decideExclusive_apply_iff l).mp hd
    simp_all
  | Skip =>
    have := (decideExclusive_skip_iff l).mp hd
    simp_all
  | Ask =>
    have ha := decideExclusive_apply_iff l
    have hs := decideExclusive_skip_iff l
    rw [hd] at ha hs
    simp at ha hs
    exact iff_of_true rfl ⟨by simpa using ha, by simpa using hs⟩

theorem decideExclusive_perm {l l' : List (Option Answer)} (h : l.Perm l') :
    decideExclusive l = decideExclusive l' := by
  unfold decideExclusive
  rw [perm_all_eq h, perm_any_eq h]

/-! ## C5 -/

/-- C5: every remembered answer is normalized per redoMaybes before the
decision rule sees it: MaybeYes becomes Yes and MaybeNo becomes No when
redoMaybes is false, both become unknown when redoMaybes is true, and
Yes, No and absent answers pass through; the answer list handed to the
decision loop is exactly the normalization of the remembered answers. -/
theorem normalize_redoMaybes_spec (redo : Bool) :
    normalizeAnswer redo (some Answer.MaybeYes) = (if redo then none else some Answer.Yes)
    ∧ normalizeAnswer redo (some Answer.MaybeNo) = (if redo then none else some Answer.No)
    ∧ normalizeAnswer redo (some Answer.Yes) = some Answer.Yes
    ∧ normalizeAnswer redo (some Answer.No) = some Answer.No
    ∧ normalizeAnswer redo none = none
    ∧ ∀ (mem : Memories) (k : String) (hashes : List String),
        answersFor redo mem k hashes
          = hashes.map (fun h => normalizeAnswer redo (memAnswer mem h k)) := by
  refine ⟨?_, ?_, rfl, rfl, rfl, fun _ _ _ => rfl⟩ <;> cases redo <;> rfl

/-! ## C1 -/

/-- C1 counterexample: on an empty relevant-answer list the Exclusive rule
yields Apply (every() is vacuously true), whereas the claim demands at
least one relevant Yes for Apply, hence Ask on the empty list. -/
theorem exclusive_empty_applies :
    decideExclusive [] = Verdict.Apply
    ∧ ¬(decideExclusive [] = Verdict.Apply ↔
        ([] : List (Option Answer)) ≠ []
          ∧ ∀ a ∈ ([] : List (Option Answer)), a = some Answer.Yes) := by
  decide

/-- C1 amended: the Exclusive verdict is Apply iff every relevant answer is
Yes (vacuously Apply when no relevant answer exists), Skip iff some
relevant answer is No, Ask otherwise; the verdict is invariant under
permutation of the answer list, so it depends only on the multiset. -/
theorem exclusive_decision_characterization (l l' : List (Option Answer))
    (hperm : l.Perm l') :
    (decideExclusive l = Verdict.Apply ↔ ∀ a ∈ l, a = some Answer.Yes)
    ∧ (decideExclusive l = Verdict.Skip ↔ some Answer.No ∈ l)
    ∧ (decideExclusive l = Verdict.Ask ↔
        ¬(∀ a ∈ l, a = some Answer.Yes) ∧ some Answer.No ∉ l)
    ∧ decideExclusive l = decideExclusive l' :=
  ⟨decideExclusive_apply_iff l, decideExclusive_skip_iff l,
   decideExclusive_ask_iff l, decideExclusive_perm hperm⟩

/-- C1 witness: instantiation at the two-element list with an unknown
answer and its transposition. -/
theorem exclusive_decision_characterization_inst :
    decideExclusive [some Answer.Yes, none] = decideExclusive [none, some Answer.Yes]
    ∧ decideExclusive [some Answer.Yes, none] = Verdict.Ask := by
  have h := exclusive_decision_characterization [some Answer.Yes, none]
    [none, some Answer.Yes] (List.Perm.swap none (some Answer.Yes) [])
  exact ⟨h.2.2.2, (h.2.2.1).mpr (by decide)⟩

/-! ## C4 -/

/-- Swap of Yes and No on a normalized answer; unknown stays unknown. -/
def swapAnswered : Option Answer → Option Answer
  | some Answer.Yes => some Answer.No
  | some Answer.No => some Answer.Yes
  | a => a

/-- Exchange of the Apply and Skip verdicts; Ask stays Ask. -/
def swapVerdict : Verdict → Verdict
  | Verdict.Apply => Verdict.Skip
  | Verdict.Skip => Verdict.Apply
  | Verdict.Ask => Verdict.Ask

theorem all_congr_fun {α : Type} (l : List α) {p q : α → Bool} (h : ∀ a, p a = q a) :
    l.all p = l.all q := by
  induction l with
  | nil => rfl
  | cons a t ih => simp [List.all_cons, h, ih]

theorem any_congr_fun {α : Type} (l : List α) {p q : α → Bool} (h : ∀ a, p a = q a) :
    l.any p = l.any q := by
  induction l with
  | nil => rfl
  | cons a t ih => simp [List.any_cons, h, ih]

theorem all_map_comp {α β : Type} (l : List α) (f : α → β) (p : β → Bool) :
    (l.map f).all p = l.all (fun a => p (f a)) := by
  induction l with
  | nil => rfl
  | cons a t ih => simp [List.all_cons, ih]

theorem any_map_comp {α β : Type} (l : List α) (f : α → β) (p : β → Bool) :
    (l.map f).any p = l.any (fun a => p (f a)) := by
  induction l with
  | nil => rfl
  | cons a t ih => simp [List.any_cons, ih]

theorem decideInclusive_apply_iff (l : List (Option Answer)) :
    decideInclusive l = Verdict.Apply ↔ some Answer.Yes ∈ l := by
  by_cases hany : l.any (fun a => decide (a = some Answer.Yes)) = true
  · simp only [decideInclusive, if_pos hany]
    simp only [List.any_eq_true, decide_eq_true_eq] at hany
    obtain ⟨a, ha, rfl⟩ := hany
    simpa using ha
  · simp only [decideInclusive, if_neg hany]
    simp only [List.any_eq_true, decide_eq_true_eq] at hany
    constructor
    · intro h
      split at h <;> simp_all
    · intro h
      exact absurd ⟨_, h, rfl⟩ hany

theorem decideInclusive_skip_iff (l : List (Option Answer)) :
    decideInclusive l = Verdict.Skip ↔ ∀ a ∈ l, a = some Answer.No := by
  by_cases hany : l.any (fun a => decide (a = some Answer.Yes)) = true
  · simp only [decideInclusive, if_pos hany]
    simp only [List.any_eq_true, decide_eq_true_eq] at hany
    obtain ⟨a, ha, rfl⟩ := hany
    constructor
    · intro h
      cases h
    · intro h
      cases h _ ha
  · simp only [decideInclusive, if_neg hany]
    by_cases hall : l.all (fun a => decide (a = some Answer.No)) = true
    · simp only [if_pos hall]
      simp only [List.all_eq_true, decide_eq_true_eq] at hall
      simpa using hall
    · simp only [if_neg hall]
      constructor
      · intro h
        cases h
      · intro h
        exact absurd (List.all_eq_true.mpr (fun a ha => decide_eq_true (h a ha))) hall

theorem decideInclusive_ask_iff (l : List (Option Answer)) :
    decideInclusive l = Verdict.Ask ↔
      some Answer.Yes ∉ l ∧ ¬(∀ a ∈ l, a = some Answer.No) := by
  cases hd : decideInclusive l with
  | Apply =>
    have := (decideInclusive_apply_iff l).mp hd
    simp_all
  | Skip =>
    have hno := (decideInclusive_skip_iff l).mp hd
    constructor
    · intro h
      cases h
    · rintro ⟨-, hn⟩
      exact absurd hno hn
  | Ask =>
    have ha := decideInclusive_apply_iff l
    have hs := decideInclusive_skip_iff l
    rw [hd] at ha hs
    simp at ha hs
    exact iff_of_true rfl ⟨by simpa using ha, by simpa using hs⟩

theorem decideInclusive_eq_dual (l : List (Option Answer)) :
    decideInclusive l = swapVerdict (decideExclusive (l.map swapAnswered)) := by
  have h1 : (l.map swapAnswered).all (fun a => decide (a = some Answer.Yes))
      = l.all (fun a => decide (a = some Answer.No)) := by
    rw [all_map_comp]
    exact all_congr_fun l (by decide)
  have h2 : (l.map swapAnswered).any (fun a => decide (a = some Answer.No))
      = l.any (fun a => decide (a = some Answer.Yes)) := by
    rw [any_map_comp]
    exact any_congr_fun l (by decide)
  unfold decideInclusive decideExclusive
  rw [h1, h2]
  by_cases hA : l.any (fun a => decide (a = some Answer.Yes)) = true
  · by_cases hB : l.all (fun a => decide (a = some Answer.No)) = true
    · exfalso
      simp only [List.any_eq_true, decide_eq_true_eq] at hA
      simp only [List.all_eq_true, decide_eq_true_eq] at hB
      obtain ⟨a, ha, rfl⟩ := hA
      cases hB _ ha
    · simp [hA, hB, swapVerdict]
  · by_cases hB : l.all (fun a => decide (a = some Answer.No)) = true
    · simp [hA, hB, swapVerdict]
    · simp [hA, hB, swapVerdict]

/-- C4: the Inclusive rule yields Apply iff some relevant answer is Yes,
Skip iff every relevant answer is No, Ask otherwise, and it equals the
Exclusive verdict on the Yes/No-swapped answer list with the Apply and
Skip verdicts exchanged. -/
theorem inclusive_dual_of_exclusive (l : List (Option Answer)) :
    (decideInclusive l = Verdict.Apply ↔ some Answer.Yes ∈ l)
    ∧ (decideInclusive l = Verdict.Skip ↔ ∀ a ∈ l, a = some Answer.No)
    ∧ (decideInclusive l = Verdict.Ask ↔
        some Answer.Yes ∉ l ∧ ¬(∀ a ∈ l, a = some Answer.No))
    ∧ decideInclusive l = swapVerdict (decideExclusive (l.map swapAnswered)) :=
  ⟨decideInclusive_apply_iff l, decideInclusive_skip_iff l,
   decideInclusive_ask_iff l, decideInclusive_eq_dual l⟩

/-! ## Store lemmas -/

theorem memAnswer_addAnswer_self (mem : Memories) (keyword hash : String) (a : Answer) :
    memAnswer (addAnswer mem keyword hash a) hash keyword = some a := by
  simp [memAnswer, addAnswer]

theorem memAnswer_addAnswer_ne_hash {h' hash : String} (hne : h' ≠ hash)
    (mem : Memories) (keyword k' : String) (a : Answer) :
    memAnswer (addAnswer mem keyword hash a) h' k' = memAnswer mem h' k' := by
  simp [memAnswer, addAnswer, hne]

theorem memAnswer_addAnswer_preserve (mem : Memories) (keyword hash h : String)
    (a : Answer) (hprev : memAnswer mem h keyword = some a) :
    memAnswer (addAnswer mem keyword hash a) h keyword = some a := by
  by_cases he : h = hash
  · subst he
    exact memAnswer_addAnswer_self mem keyword h a
  · rw [memAnswer_addAnswer_ne_hash he]
    exact hprev

theorem foldl_addAnswer_preserve (t : List String) (mem : Memories)
    (keyword h : String) (a : Answer) (hprev : memAnswer mem h keyword = some a) :
    memAnswer (t.foldl (fun m x => addAnswer m keyword x a) mem) h keyword = some a := by
  induction t generalizing mem with
  | nil => exact hprev
  | cons x t ih =>
    exact ih _ (memAnswer_addAnswer_preserve mem keyword x h a hprev)

theorem foldl_addAnswer_mem (hashes : List String) (mem : Memories)
    (keyword h : String) (a : Answer) (hm : h ∈ hashes) :
    memAnswer (hashes.foldl (fun m x => addAnswer m keyword x a) mem) h keyword
      = some a := by
  induction hashes generalizing mem with
  | nil => cases hm
  | cons x t ih =>
    rcases List.mem_cons.mp hm with rfl | hmt
    · exact foldl_addAnswer_preserve t _ keyword h a
        (memAnswer_addAnswer_self mem keyword h a)
    · exact ih _ hmt

/-! ## C2 -/

/-- C2: for an Exclusive keyword answered No or MaybeNo, no tag is applied
(the tag list is returned unchanged) and attribution goes over the relevant
hashes whose prior normalized answer was not Yes: with exactly one such
ambiguous hash the chosen answer is recorded against it, and with two or
more the store is returned unchanged. -/
theorem exclusive_negative_attribution (relH : List String)
    (relA : List (Option Answer)) (hashes : List String) (keyword : String)
    (mem : Memories) (tags : List String) (choice : Choice)
    (hch : choice = Choice.cno ∨ choice = Choice.cmaybeNo) :
    ∃ mem', learnOne KeywordType.Exclusive relH relA hashes keyword choice mem tags
        = some (mem', tags)
      ∧ (∀ h, stillAmbiguous Answer.Yes relH relA = [h] →
          mem' = addAnswer mem keyword h
            (if choice = Choice.cno then Answer.No else Answer.MaybeNo)
          ∧ memAnswer mem' h keyword
            = some (if choice = Choice.cno then Answer.No else Answer.MaybeNo))
      ∧ (2 ≤ (stillAmbiguous Answer.Yes relH relA).length → mem' = mem) := by
  cases hs : stillAmbiguous Answer.Yes relH relA with
  | nil =>
    refine ⟨mem, ?_, ?_, fun _ => rfl⟩
    · rcases hch with rfl | rfl <;> simp [learnOne, hs]
    · intro h hh
      cases hh
  | cons a t =>
    cases t with
    | nil =>
      refine ⟨addAnswer mem keyword a
          (if choice = Choice.cno then Answer.No else Answer.MaybeNo), ?_, ?_, ?_⟩
      · rcases hch with rfl | rfl <;> simp [learnOne, hs]
      · intro h hh
        injection hh with h1 h2
        subst h1
        exact ⟨rfl, memAnswer_addAnswer_self mem keyword a _⟩
      · intro hlen
        simp at hlen
    | cons b t2 =>
      refine ⟨mem, ?_, ?_, fun _ => rfl⟩
      · rcases hch with rfl | rfl <;> simp [learnOne, hs]
      · intro h hh
        simp at hh

/-- C2 witness: two relevant hashes, the first already Yes, so the single
ambiguous hash h2 receives the No answer. -/
theorem exclusive_negative_attribution_inst :
    learnOne KeywordType.Exclusive ["h1", "h2"] [some Answer.Yes, none]
        ["h1", "h2"] "K" Choice.cno emptyMemories []
      = some (addAnswer emptyMemories "K" "h2" Answer.No, [])
    ∧ memAnswer (addAnswer emptyMemories "K" "h2" Answer.No) "h2" "K"
      = some Answer.No := by
  obtain ⟨mem', h1, h2, h3⟩ := exclusive_negative_attribution ["h1", "h2"]
    [some Answer.Yes, none] ["h1", "h2"] "K" emptyMemories [] Choice.cno (Or.inl rfl)
  obtain ⟨he, hm⟩ := h2 "h2" (by decide)
  rw [he] at h1 hm
  exact ⟨by simpa using h1, by simpa using hm⟩

/-! ## C3 -/

/-- C3: for an Exclusive keyword answered Yes or MaybeYes, the keyword is
applied to the record (appended to the tag list) and the chosen answer is
recorded against the fingerprint of every component hash, not only the
relevant ones. -/
theorem exclusive_positive_learning (relH : List String)
    (relA : List (Option Answer)) (hashes : List String) (keyword : String)
    (mem : Memories) (tags : List String) (choice : Choice)
    (hch : choice = Choice.cyes ∨ choice = Choice.cmaybeYes) :
    learnOne KeywordType.Exclusive relH relA hashes keyword choice mem tags
      = some (hashes.foldl (fun m h => addAnswer m keyword h
          (if choice = Choice.cyes then Answer.Yes else Answer.MaybeYes)) mem,
        tags ++ [keyword])
    ∧ ∀ h ∈ hashes,
        memAnswer (hashes.foldl (fun m h => addAnswer m keyword h
          (if choice = Choice.cyes then Answer.Yes else Answer.MaybeYes)) mem)
          h keyword
        = some (if choice = Choice.cyes then Answer.Yes else Answer.MaybeYes) := by
  rcases hch with rfl | rfl <;>
    exact ⟨rfl, fun h hm => foldl_addAnswer_mem hashes mem keyword h _ hm⟩

/-- C3 witness: both hashes receive Yes although only h1 is relevant. -/
theorem exclusive_positive_learning_inst :
    memAnswer (["h1", "h2"].foldl (fun m h => addAnswer m "K" h Answer.Yes)
        emptyMemories) "h2" "K" = some Answer.Yes := by
  have h := exclusive_positive_learning ["h1"] [none] ["h1", "h2"] "K"
    emptyMemories [] Choice.cyes (Or.inl rfl)
  simpa using h.2 "h2" (by decide)

/-! ## Merge lemmas -/

theorem mem_dedupSeen (x : String) (l : List String) :
    ∀ (seen : List String), x ∈ dedupSeen seen l ↔ x ∈ l ∧ x ∉ seen := by
  induction l with
  | nil =>
    intro seen
    simp [dedupSeen]
  | cons a t ih =>
    intro seen
    by_cases ha : a ∈ seen
    · simp only [dedupSeen, if_pos ha]
      rw [ih seen]
      constructor
      · rintro ⟨hx, hns⟩
        exact ⟨List.mem_cons_of_mem _ hx, hns⟩
      · rintro ⟨hx, hns⟩
        rcases List.mem_cons.mp hx with rfl | hx
        · exact absurd ha hns
        · exact ⟨hx, hns⟩
    · simp only [dedupSeen, if_neg ha]
      constructor
      · intro hx
        rcases List.mem_cons.mp hx with rfl | hx
        · exact ⟨List.mem_cons_self _ _, ha⟩
        · obtain ⟨h1, h2⟩ := (ih _).mp hx
          exact ⟨List.mem_cons_of_mem _ h1, fun hc => h2 (List.mem_cons_of_mem _ hc)⟩
      · rintro ⟨hx, hns⟩
        rcases List.mem_cons.mp hx with rfl | hx
        · exact List.mem_cons_self _ _
        · by_cases hxa : x = a
          · subst hxa
            exact List.mem_cons_self _ _
          · refine List.mem_cons_of_mem _ ((ih _).mpr ⟨hx, ?_⟩)
            intro hc
            rcases List.mem_cons.mp hc with h | h
            · exact hxa h
            · exact hns h

theorem dedupSeen_eq_nil (l seen : List String) (h : ∀ x ∈ l, x ∈ seen) :
    dedupSeen seen l = [] := by
  induction l with
  | nil => rfl
  | cons a t ih =>
    have ha : a ∈ seen := h a (List.mem_cons_self _ _)
    simp only [dedupSeen, if_pos ha]
    exact ih (fun x hx => h x (List.mem_cons_of_mem _ hx))

theorem dedupSeen_append (l l' : List String) :
    ∀ seen, l.Nodup → (∀ x ∈ l, x ∉ seen) →
      dedupSeen seen (l ++ l') = l ++ dedupSeen (l.reverse ++ seen) l' := by
  induction l with
  | nil =>
    intro seen _ _
    simp
  | cons a t ih =>
    intro seen hnd hdis
    have ha : a ∉ seen := hdis a (List.mem_cons_self _ _)
    have hdis' : ∀ x ∈ t, x ∉ (a :: seen) := by
      intro x hx hc
      rcases List.mem_cons.mp hc with rfl | hc2
      · exact (List.nodup_cons.mp hnd).1 hx
      · exact hdis x (List.mem_cons_of_mem _ hx) hc2
    simp only [List.cons_append, dedupSeen, if_neg ha, List.append_eq]
    rw [ih (a :: seen) (List.nodup_cons.mp hnd).2 hdis']
    simp [List.reverse_cons, List.append_assoc]

theorem dedupFirst_self_append (l : List String) (h : l.Nodup) :
    dedupFirst (l ++ l) = l := by
  unfold dedupFirst
  rw [dedupSeen_append l l [] h (by simp)]
  rw [dedupSeen_eq_nil l (l.reverse ++ []) (by intro x hx; simp [hx])]
  simp

theorem mem_dedupFirst (x : String) (l : List String) :
    x ∈ dedupFirst l ↔ x ∈ l := by
  unfold dedupFirst
  rw [mem_dedupSeen]
  simp

theorem mergeEntry_self (m : Memory) (h : m.filenames.Nodup) : mergeEntry m m = m := by
  cases m with
  | mk fns kws =>
    simp only [mergeEntry]
    congr 1
    · exact dedupFirst_self_append fns h
    · funext k
      cases hk : kws k <;> simp [hk]

theorem importMemories_self (M : Memories)
    (h : ∀ hsh m, M hsh = some m → m.filenames.Nodup) :
    importMemories M M = M := by
  funext hsh
  unfold importMemories
  cases hM : M hsh with
  | none => rfl
  | some m =>
    show some (mergeEntry m m) = some m
    rw [mergeEntry_self m (h hsh m hM)]

/-! ## C6 -/

/-- A store whose single entry carries a duplicated filename list. -/
def dupMemories : Memories :=
  fun h => if h = "h1" then some ⟨["a", "a"], fun _ => none⟩ else none

/-- C6 counterexample: merging a store with itself deduplicates filename
lists, so merge(M, M) differs from M when an entry holds a duplicate. -/
theorem importMemories_not_idempotent_dup :
    importMemories dupMemories dupMemories ≠ dupMemories := by
  intro hEq
  have h2 : memFilenames (importMemories dupMemories dupMemories) "h1" = ["a"] := by
    decide
  have h3 : memFilenames dupMemories "h1" = ["a", "a"] := by decide
  rw [hEq, h3] at h2
  simp at h2

/-- C6 amended: the merge inserts fingerprints absent from the local store
verbatim; for fingerprints present in both it takes the first-occurrence
set union of the filenames and overlays the imported keyword answers with
the local ones, the local answer winning whenever it is defined; the merge
is idempotent on every store whose filename lists hold no duplicates. -/
theorem importMemories_merge_spec (memories newMemories : Memories) :
    (∀ h, memories h = none →
        importMemories memories newMemories h = newMemories h)
    ∧ (∀ h m nm, memories h = some m → newMemories h = some nm →
        importMemories memories newMemories h = some (mergeEntry m nm)
        ∧ (∀ x, x ∈ (mergeEntry m nm).filenames ↔
            x ∈ m.filenames ∨ x ∈ nm.filenames)
        ∧ (∀ k a, m.keywords k = some a → (mergeEntry m nm).keywords k = some a)
        ∧ (∀ k, m.keywords k = none →
            (mergeEntry m nm).keywords k = nm.keywords k))
    ∧ ((∀ h m, memories h = some m → m.filenames.Nodup) →
        importMemories memories memories = memories) := by
  refine ⟨?_, ?_, importMemories_self memories⟩
  · intro h hm
    unfold importMemories
    cases hn : newMemories h with
    | none => exact hm
    | some nm => rw [hm]
  · intro h m nm hm hn
    refine ⟨?_, ?_, ?_, ?_⟩
    · unfold importMemories
      rw [hn, hm]
    · intro x
      simp [mergeEntry, mem_dedupFirst]
    · intro k a hk
      simp [mergeEntry, hk]
    · intro k hk
      simp [mergeEntry, hk]

/-- C6 witness: a duplicate-free store merged with itself is unchanged. -/
def okMemories : Memories :=
  fun h => if h = "h1" then
    some ⟨["b"], fun k => if k = "K" then some Answer.Yes else none⟩
  else none

theorem importMemories_merge_spec_inst :
    importMemories okMemories okMemories = okMemories := by
  apply (importMemories_merge_spec okMemories okMemories).2.2
  intro hsh m hm
  unfold okMemories at hm
  split at hm
  · injection hm with hm'
    rw [← hm']
    decide
  · cases hm

/-! ## Hashing lemmas -/

theorem memAnswer_addName (mem : Memories) (hash nif h k : String) :
    memAnswer (addName mem hash nif) h k = memAnswer mem h k := by
  by_cases he : h = hash
  · subst he
    cases hm : mem h with
    | none => simp [memAnswer, addName, hm, defaultMemory]
    | some mm => simp [memAnswer, addName, hm]
  · simp [memAnswer, addName, he]

theorem foldl_addName_memAnswer (nifs : List String) (l : List (Nat × String)) :
    ∀ (mem : Memories) (h k : String),
      memAnswer (l.foldl (fun m p => addName m p.2 (nifs.getD p.1 "")) mem) h k
        = memAnswer mem h k := by
  induction l with
  | nil =>
    intro mem h k
    rfl
  | cons p t ih =>
    intro mem h k
    rw [List.foldl_cons, ih, memAnswer_addName]

theorem memAnswer_recordNames (mem : Memories) (hashes nifs : List String)
    (h k : String) :
    memAnswer (recordNames mem hashes nifs) h k = memAnswer mem h k :=
  foldl_addName_memAnswer nifs hashes.enum mem h k

/-! ## C7 -/

/-- C7 counterexample: the first hash operation completes with hash h1 and
the second fails; the claim says the filename observation for h1 is still
merged, but the each pass never runs on a rejected Promise.map, so the
memory comes back with no entry for h1 at all. -/
theorem hashPhase_failure_drops_names :
    (hashPhase [Except.ok "h1", Except.error "fail"] ["n1", "n2"] emptyMemories).2
      = emptyMemories
    ∧ "n1" ∉ memFilenames
        ((hashPhase [Except.ok "h1", Except.error "fail"] ["n1", "n2"]
          emptyMemories).2) "h1"
    ∧ (hashPhase [Except.ok "h1", Except.error "fail"] ["n1", "n2"]
        emptyMemories).1 = none := by
  refine ⟨rfl, ?_, rfl⟩
  have h0 : (hashPhase [Except.ok "h1", Except.error "fail"] ["n1", "n2"]
      emptyMemories).2 = emptyMemories := rfl
  rw [h0]
  simp [memFilenames, emptyMemories, defaultMemory]

/-- C7 amended: a failure of any one hash operation aborts that composite
only (the phase is caught and yields no hashes without touching the store,
so the run continues), but no filename observation from that composite is
merged on failure; filename observations are recorded exactly when every
hash completes. -/
theorem hashPhase_failure_spec (results : List (Except String String))
    (nifs : List String) (mem : Memories) :
    (∀ e, collectHashes results = Except.error e →
        hashPhase results nifs mem = (none, mem))
    ∧ (∀ hashes, collectHashes results = Except.ok hashes →
        hashPhase results nifs mem = (some hashes, recordNames mem hashes nifs)) := by
  constructor
  · intro e he
    simp [hashPhase, he]
  · intro hashes hh
    simp [hashPhase, hh]

/-- C7 witness: one completed sibling, one failed sibling. -/
theorem hashPhase_failure_spec_inst :
    hashPhase [Except.ok "h1", Except.error "e2"] ["n1", "n2"] emptyMemories
      = (none, emptyMemories) :=
  (hashPhase_failure_spec [Except.ok "h1", Except.error "e2"] ["n1", "n2"]
    emptyMemories).1 "e2" rfl

/-! ## C8 -/

/-- A store remembering Yes for keyword K on hash h1, with an as yet
unobserved filename list. -/
def yesMemories : Memories :=
  fun h => if h = "h1" then
    some ⟨[], fun k => if k = "K" then some Answer.Yes else none⟩
  else none

/-- C8 counterexample: a record whose single keyword is auto-decided
(remembered Yes) returns before saveMemories, so the new filename
observation n1 lives in the in-memory store but the persisted snapshot is
left behind: the snapshot does not equal the in-memory mapping after the
record is processed. -/
theorem processRecord_no_flush_when_auto :
    (processRecord false (fun _ => KeywordType.Exclusive) ["K"] (fun _ _ => true)
        (fun _ => Choice.ccancel) ["n1"] [Except.ok "h1"]
        ⟨yesMemories, emptyMemories⟩).cancelled = false
    ∧ memFilenames (processRecord false (fun _ => KeywordType.Exclusive) ["K"]
        (fun _ _ => true) (fun _ => Choice.ccancel) ["n1"] [Except.ok "h1"]
        ⟨yesMemories, emptyMemories⟩).mem "h1" = ["n1"]
    ∧ memFilenames (processRecord false (fun _ => KeywordType.Exclusive) ["K"]
        (fun _ _ => true) (fun _ => Choice.ccancel) ["n1"] [Except.ok "h1"]
        ⟨yesMemories, emptyMemories⟩).persisted "h1" = []
    ∧ (processRecord false (fun _ => KeywordType.Exclusive) ["K"] (fun _ _ => true)
        (fun _ => Choice.ccancel) ["n1"] [Except.ok "h1"]
        ⟨yesMemories, emptyMemories⟩).persisted
      ≠ (processRecord false (fun _ => KeywordType.Exclusive) ["K"] (fun _ _ => true)
        (fun _ => Choice.ccancel) ["n1"] [Except.ok "h1"]
        ⟨yesMemories, emptyMemories⟩).mem := by
  have h2 : memFilenames (processRecord false (fun _ => KeywordType.Exclusive) ["K"]
      (fun _ _ => true) (fun _ => Choice.ccancel) ["n1"] [Except.ok "h1"]
      ⟨yesMemories, emptyMemories⟩).mem "h1" = ["n1"] := by decide
  have h3 : memFilenames (processRecord false (fun _ => KeywordType.Exclusive) ["K"]
      (fun _ _ => true) (fun _ => Choice.ccancel) ["n1"] [Except.ok "h1"]
      ⟨yesMemories, emptyMemories⟩).persisted "h1" = [] := by decide
  refine ⟨rfl, h2, h3, ?_⟩
  intro hEq
  rw [hEq, h2] at h3
  cases h3

/-- C8 amended: the snapshot is written exactly when the record reached a
completed learning step.  With nifs present and all hashes collected: when
nothing is left to ask the call returns the recorded names without
flushing; when keywords were asked and the user cancelled, the snapshot is
also left unchanged; only when the asked keywords complete is the full
in-memory store flushed (persisted = final mem). -/
theorem processRecord_flush_spec (redo : Bool) (ktype : String → KeywordType)
    (ktp : List String) (isRel : String → Nat → Bool) (choiceOf : String → Choice)
    (nifs : List String) (hashResults : List (Except String String)) (st : RunState)
    (hashes : List String) (mem1 : Memories) (dp : List String × List String)
    (lr : Memories × List String × Bool)
    (hn : nifs.isEmpty = false)
    (hh : collectHashes hashResults = Except.ok hashes)
    (hmem1 : mem1 = recordNames st.mem hashes nifs)
    (hdp : dp = decisionPhase ktype (relAnswersOf redo isRel mem1 hashes) ktp)
    (hlr : lr = learnAll ktype (relHashesOf isRel hashes)
        (relAnswersOf redo isRel mem1 hashes) hashes choiceOf dp.2 mem1 dp.1) :
    (dp.2 = [] →
      processRecord redo ktype ktp isRel choiceOf nifs hashResults st
        = ⟨mem1, st.persisted, dp.1, false⟩)
    ∧ (dp.2 ≠ [] → lr.2.2 = true →
      processRecord redo ktype ktp isRel choiceOf nifs hashResults st
        = ⟨lr.1, st.persisted, lr.2.1, true⟩)
    ∧ (dp.2 ≠ [] → lr.2.2 = false →
      processRecord redo ktype ktp isRel choiceOf nifs hashResults st
        = ⟨lr.1, lr.1, lr.2.1, false⟩) := by
  subst hmem1
  subst hdp
  subst hlr
  refine ⟨?_, ?_, ?_⟩
  · intro hask
    simp only [processRecord, hashPhase, hh, hn, Bool.false_eq_true, if_false]
    rw [hask]
    simp
  · intro hask hcanc
    have hne : (decisionPhase ktype (relAnswersOf redo isRel
        (recordNames st.mem hashes nifs) hashes) ktp).2.isEmpty = false := by
      cases he : (decisionPhase ktype (relAnswersOf redo isRel
          (recordNames st.mem hashes nifs) hashes) ktp).2 with
      | nil => exact absurd he hask
      | cons a t => rfl
    simp only [processRecord, hashPhase, hh, hn, Bool.false_eq_true, if_false,
      hne, hcanc, if_true]
  · intro hask hcanc
    have hne : (decisionPhase ktype (relAnswersOf redo isRel
        (recordNames st.mem hashes nifs) hashes) ktp).2.isEmpty = false := by
      cases he : (decisionPhase ktype (relAnswersOf redo isRel
          (recordNames st.mem hashes nifs) hashes) ktp).2 with
      | nil => exact absurd he hask
      | cons a t => rfl
    simp only [processRecord, hashPhase, hh, hn, Bool.false_eq_true, if_false,
      hne, hcanc]

/-- C8 witness: the auto-decided record from the nothing-to-ask branch. -/
theorem processRecord_flush_spec_inst :
    processRecord false (fun _ => KeywordType.Exclusive) ["K"] (fun _ _ => true)
        (fun _ => Choice.ccancel) ["n1"] [Except.ok "h1"]
        ⟨yesMemories, emptyMemories⟩
      = ⟨recordNames yesMemories ["h1"] ["n1"], emptyMemories,
         (decisionPhase (fun _ => KeywordType.Exclusive)
           (relAnswersOf false (fun _ _ => true)
             (recordNames yesMemories ["h1"] ["n1"]) ["h1"]) ["K"]).1, false⟩ := by
  have h := (processRecord_flush_spec false (fun _ => KeywordType.Exclusive) ["K"]
    (fun _ _ => true) (fun _ => Choice.ccancel) ["n1"] [Except.ok "h1"]
    ⟨yesMemories, emptyMemories⟩ ["h1"] _ _ _ rfl rfl rfl rfl rfl).1 (by decide)
  exact h

/-! ## Cancel lemmas -/

theorem learnOne_cancel (kt : KeywordType) (relH : List String)
    (relA : List (Option Answer)) (hashes : List String) (keyword : String)
    (mem : Memories) (tags : List String) :
    learnOne kt relH relA hashes keyword Choice.ccancel mem tags = none := by
  cases kt <;> rfl

theorem learnAll_cancel_all (ktype : String → KeywordType)
    (relH : String → List String) (relA : String → List (Option Answer))
    (hashes : List String) (ks : List String) (mem : Memories) (tags : List String)
    (hne : ks ≠ []) :
    learnAll ktype relH relA hashes (fun _ => Choice.ccancel) ks mem tags
      = (mem, tags, true) := by
  cases ks with
  | nil => exact absurd rfl hne
  | cons k rest => simp [learnAll, learnOne_cancel]

theorem processRecord_persisted_or (redo : Bool) (ktype : String → KeywordType)
    (ktp : List String) (isRel : String → Nat → Bool) (choiceOf : String → Choice)
    (nifs : List String) (hashResults : List (Except String String)) (st : RunState) :
    (processRecord redo ktype ktp isRel choiceOf nifs hashResults st).persisted
      = st.persisted
    ∨ (processRecord redo ktype ktp isRel choiceOf nifs hashResults st).cancelled
      = false := by
  simp only [processRecord]
  split
  · exact Or.inl rfl
  · split
    · exact Or.inl rfl
    · split
      · exact Or.inl rfl
      · split
        · exact Or.inl rfl
        · exact Or.inr rfl

/-! ## C9 -/

/-- C9 counterexample: two Exclusive keywords are asked; the user answers
Yes for K1 and Cancel for K2.  The composite aborts as cancelled, yet the
tag K1 was already applied during the same batch, so the aborted composite
did receive a partial tag application. -/
theorem cancel_partial_tags :
    (processRecord false (fun _ => KeywordType.Exclusive) ["K1", "K2"]
        (fun _ _ => true)
        (fun k => if k = "K2" then Choice.ccancel else Choice.cyes) ["n1"]
        [Except.ok "h1"] ⟨emptyMemories, emptyMemories⟩).cancelled = true
    ∧ (processRecord false (fun _ => KeywordType.Exclusive) ["K1", "K2"]
        (fun _ _ => true)
        (fun k => if k = "K2" then Choice.ccancel else Choice.cyes) ["n1"]
        [Except.ok "h1"] ⟨emptyMemories, emptyMemories⟩).tags = ["K1"] := by
  constructor
  · decide
  · decide

/-- C9 amended: a Cancel aborts the composite as a user abort: the
cancelled keyword and every keyword after it in the ask batch contribute
no memory answer and no tag (the learning loop stops with the store and
tag list exactly as they were before the cancelled keyword), and a
cancelled composite never writes the persisted snapshot, so memory flushed
for earlier composites remains durable; tags and in-memory answers of
keywords answered earlier in the same batch are kept. -/
theorem cancel_abort_spec (ktype : String → KeywordType)
    (relH : String → List String) (relA : String → List (Option Answer))
    (hashes : List String) (choiceOf : String → Choice) (k : String)
    (rest : List String) (mem : Memories) (tags : List String) (redo : Bool)
    (ktp : List String) (isRel : String → Nat → Bool) (nifs : List String)
    (hashResults : List (Except String String)) (st : RunState)
    (hk : choiceOf k = Choice.ccancel) :
    learnAll ktype relH relA hashes choiceOf (k :: rest) mem tags = (mem, tags, true)
    ∧ ((processRecord redo ktype ktp isRel choiceOf nifs hashResults st).cancelled
          = true →
        (processRecord redo ktype ktp isRel choiceOf nifs hashResults st).persisted
          = st.persisted) := by
  constructor
  · have hcan : learnOne (ktype k) (relH k) (relA k) hashes k (choiceOf k) mem tags
        = none := by
      rw [hk]
      exact learnOne_cancel _ _ _ _ _ _ _
    simp [learnAll, hcan]
  · intro hc
    rcases processRecord_persisted_or redo ktype ktp isRel choiceOf nifs hashResults st
      with h | h
    · exact h
    · rw [hc] at h
      cases h

/-- C9 witness: a single asked keyword answered Cancel aborts with the
store, tags and snapshot untouched. -/
theorem cancel_abort_spec_inst :
    learnAll (fun _ => KeywordType.Exclusive) (fun _ => ["h1"]) (fun _ => [none])
        ["h1"] (fun _ => Choice.ccancel) ["K1"] emptyMemories []
      = (emptyMemories, [], true)
    ∧ (processRecord false (fun _ => KeywordType.Exclusive) ["K1"] (fun _ _ => true)
        (fun _ => Choice.ccancel) ["n1"] [Except.ok "h1"]
        ⟨emptyMemories, emptyMemories⟩).persisted = emptyMemories := by
  have h := cancel_abort_spec (fun _ => KeywordType.Exclusive) (fun _ => ["h1"])
    (fun _ => [none]) ["h1"] (fun _ => Choice.ccancel) "K1" [] emptyMemories []
    false ["K1"] (fun _ _ => true) ["n1"] [Except.ok "h1"]
    ⟨emptyMemories, emptyMemories⟩ rfl
  exact ⟨h.1, h.2 (by decide)⟩

/-! ## C10 -/

/-- C10: before any human answer, stored keyword answers never change:
addName touches only the filenames field, the whole name-recording pass
and the hashing phase preserve every stored answer, and a full patch call
that answers no question (modelled with the always-Cancel oracle, which
stops the learning loop before any answer is recorded) leaves the answer
of every fingerprint for every keyword exactly as it was. -/
theorem auto_phase_preserves_answers :
    (∀ (mem : Memories) (hash nif h k : String),
        memAnswer (addName mem hash nif) h k = memAnswer mem h k)
    ∧ (∀ (mem : Memories) (hashes nifs : List String) (h k : String),
        memAnswer (recordNames mem hashes nifs) h k = memAnswer mem h k)
    ∧ (∀ (hashResults : List (Except String String)) (nifs : List String)
        (mem : Memories) (h k : String),
        memAnswer ((hashPhase hashResults nifs mem).2) h k = memAnswer mem h k)
    ∧ (∀ (redo : Bool) (ktype : String → KeywordType) (ktp : List String)
        (isRel : String → Nat → Bool) (nifs : List String)
        (hashResults : List (Except String String)) (st : RunState) (h k : String),
        memAnswer ((processRecord redo ktype ktp isRel (fun _ => Choice.ccancel)
          nifs hashResults st).mem) h k = memAnswer st.mem h k) := by
  have hphase : ∀ (hashResults : List (Except String String)) (nifs : List String)
      (mem : Memories) (h k : String),
      memAnswer ((hashPhase hashResults nifs mem).2) h k = memAnswer mem h k := by
    intro hashResults nifs mem h k
    cases hc : collectHashes hashResults with
    | error e => simp [hashPhase, hc]
    | ok hs => simp [hashPhase, hc, memAnswer_recordNames]
  refine ⟨memAnswer_addName, memAnswer_recordNames, hphase, ?_⟩
  intro redo ktype ktp isRel nifs hashResults st h k
  simp only [processRecord]
  split
  · rfl
  · split
    · rfl
    · next hashes mem1 heq =>
      have hm1 : memAnswer mem1 h k = memAnswer st.mem h k := by
        have h2 : mem1 = (hashPhase hashResults nifs st.mem).2 := by rw [heq]
        rw [h2]
        exact hphase hashResults nifs st.mem h k
      split
      · exact hm1
      · next hne' =>
        have hne : (decisionPhase ktype (relAnswersOf redo isRel mem1 hashes)
            ktp).2 ≠ [] := by
          intro he
          rw [he] at hne'
          exact hne' rfl
        rw [learnAll_cancel_all ktype (relHashesOf isRel hashes)
          (relAnswersOf redo isRel mem1 hashes) hashes _ mem1 _ hne]
        simpa using hm1
